import Mathlib

/-!
Verification development for the barrel-resolution core of
`vite-plugin-resolve-barrels`.

The embedding models, faithfully to the TypeScript source:
- `parseExportsFromFile.ts` (export extractor over a TypeScript-AST model),
- `buildExportMap.ts` (directory export index over a filesystem-tree model),
- `resolveModuleFile.ts` (specifier-to-file probing),
- `resolveExportThroughBarrel.ts` (the barrel resolver).

Paths are modelled as lists of segments of an absolute path; path strings
(as produced by Node's `path.join` / `path.resolve` on such inputs) are
recovered by `render`.  Module sources are modelled as lists of top-level
statements, carrying exactly the structure the extractor inspects.
A file whose content is `none` models an unreadable or unparsable file.
-/

/-- A TypeScript property name as inspected by the extractor: the code only
distinguishes identifier property names from everything else. -/
inductive PropName where
  | ident (s : String)
  | nonIdent
deriving DecidableEq

mutual
/-- The binding-name shapes of a variable declaration:
a plain identifier, an array binding pattern, or an object binding pattern. -/
inductive BindingName where
  | ident (s : String)
  | arrayPattern (elems : List ArrayElem)
  | objectPattern (elems : List ObjectElem)

/-- One element of an array binding pattern: a hole (omitted expression) or a
binding element with an optional property name. -/
inductive ArrayElem where
  | omitted
  | binding (propertyName : Option PropName) (nm : BindingName)

/-- One element of an object binding pattern. -/
inductive ObjectElem where
  | binding (propertyName : Option PropName) (nm : BindingName)
end

/-- One element of a named export clause, e.g. `a` or `a as b` in
`export { a, b as c }`. `name` is the outside name (`e.name.text`), and
`propertyName` the optional inside name. -/
structure ExportSpecifier where
  name : String
  propertyName : Option PropName
deriving DecidableEq

/-- The export clause of an `ExportDeclaration`: a named export list, or a
namespace export (`export * as ns from ...`). -/
inductive ExportClause where
  | named (elems : List ExportSpecifier)
  | namespaceExport
deriving DecidableEq

/-- A module specifier node: a string literal or any other expression. -/
inductive ModSpec where
  | strLit (s : String)
  | nonString
deriving DecidableEq

/-- A top-level statement, carrying exactly the structure
`parseExportsFromFile` inspects on each child of the source file. -/
inductive Statement where
  | exportDecl (clause : Option ExportClause) (moduleSpecifier : Option ModSpec)
  | varStmt (isExported : Bool) (decls : List BindingName)
  | namedDecl (isExported : Bool) (nm : Option String)
  | otherStmt

/-- The `ExportInfo` record of the source:
`type ExportInfo = \x7b name; local?; isReexport?; module? \x7d`.
The source leaves `isReexport` undefined (falsy) for local declarations,
which the Boolean default `false` models. -/
structure ExportInfo where
  name : String
  localName : Option String := none
  isReexport : Bool := false
  module : Option String := none
deriving DecidableEq

/-- JavaScript truthiness of a `string | undefined` value: `undefined` and
the empty string are falsy. -/
def strTruthy : Option String → Bool
  | none => false
  | some s => if s = "" then false else true

/-- `handleExportDeclaration` of `parseExportsFromFile.ts`. -/
def handleExportDeclaration (clause : Option ExportClause) (ms : Option ModSpec) :
    List ExportInfo :=
  let moduleSpec : Option String :=
    match ms with
    | some (ModSpec.strLit s) => some s
    | _ => none
  match clause with
  | some (ExportClause.named elems) =>
      elems.map fun e =>
        let nm := e.name
        let loc : String :=
          match e.propertyName with
          | some (PropName.ident t) => t
          | _ => nm
        { name := nm, localName := some loc, isReexport := strTruthy moduleSpec,
          module := moduleSpec }
  | some ExportClause.namespaceExport => []
  | none =>
      match moduleSpec with
      | some m =>
          if m = "" then []
          else [{ name := "*", localName := none, isReexport := true, module := some m }]
      | none => []

/-- The array-destructuring branch of `handleVariableStatement`, per element:
use the element's binding name when it is an identifier; otherwise fall back
to an identifier property name when present. -/
def arrayElemFacts : ArrayElem → List ExportInfo
  | ArrayElem.omitted => []
  | ArrayElem.binding pn nm =>
      match nm with
      | BindingName.ident s => [{ name := s }]
      | _ =>
          match pn with
          | some (PropName.ident t) => [{ name := t }]
          | _ => []

/-- The object-destructuring branch of `handleVariableStatement`, per element:
a fact is produced only when the element's binding name is an identifier. -/
def objectElemFacts : ObjectElem → List ExportInfo
  | ObjectElem.binding _ (BindingName.ident s) => [{ name := s }]
  | ObjectElem.binding _ _ => []

/-- `handleVariableStatement` of `parseExportsFromFile.ts`. -/
def handleVariableStatement (decls : List BindingName) : List ExportInfo :=
  decls.flatMap fun d =>
    match d with
    | BindingName.ident s => [{ name := s }]
    | BindingName.arrayPattern elems => elems.flatMap arrayElemFacts
    | BindingName.objectPattern elems => elems.flatMap objectElemFacts

/-- The per-statement dispatch of `parseExportsFromFile`:
export declarations, exported variable statements, and exported
function/class/interface/enum declarations (`handleTypeDeclaration`). -/
def extractStatement : Statement → List ExportInfo
  | Statement.exportDecl clause ms => handleExportDeclaration clause ms
  | Statement.varStmt true decls => handleVariableStatement decls
  | Statement.namedDecl true (some n) => [{ name := n }]
  | _ => []

/-- Specification side (amended C8): the identifier an array element binds
at the top level of the pattern — its identifier binding name, or, failing
that, an identifier property name.  Identifiers inside a nested binding
pattern are not collected. -/
def arrayElemBoundNames : ArrayElem → List String
  | ArrayElem.omitted => []
  | ArrayElem.binding _ (BindingName.ident s) => [s]
  | ArrayElem.binding (some (PropName.ident t)) _ => [t]
  | ArrayElem.binding _ _ => []

/-- Specification side (amended C8): the identifier an object element binds
at the top level of the pattern — its binding name when that name is an
identifier.  Identifiers inside a nested binding pattern are not
collected. -/
def objectElemBoundNames : ObjectElem → List String
  | ObjectElem.binding _ (BindingName.ident s) => [s]
  | ObjectElem.binding _ _ => []

/-- Specification-side companion for the amended C8 claim: the identifiers
bound at the top level of a binding pattern, in declaration order. -/
def topLevelBoundNames : BindingName → List String
  | BindingName.ident s => [s]
  | BindingName.arrayPattern elems => elems.flatMap arrayElemBoundNames
  | BindingName.objectPattern elems => elems.flatMap objectElemBoundNames

/-! ## Filesystem model -/

mutual
/-- A directory entry: a file with its parsed content (`none` models an
unreadable or unparsable file), or a subdirectory. -/
inductive Entry where
  | file (nm : String) (data : Option (List Statement))
  | dir (nm : String) (entries : EntryList)

/-- A directory listing, in `readdirSync` order. -/
inductive EntryList where
  | nil
  | cons (e : Entry) (rest : EntryList)
end

/-- Build a directory listing from a plain list. -/
def elOf : List Entry → EntryList
  | [] => EntryList.nil
  | e :: rest => EntryList.cons e (elOf rest)

/-- A filesystem snapshot: the entries of the root directory. -/
structure FS where
  root : EntryList

/-- An absolute path, as its list of segments. -/
abbrev FPath := List String

def entryName : Entry → String
  | Entry.file n _ => n
  | Entry.dir n _ => n

/-- The first entry of a listing carrying the given name. -/
def findEntry : EntryList → String → Option Entry
  | EntryList.nil, _ => none
  | EntryList.cons e rest, s => if entryName e = s then some e else findEntry rest s

/-- Navigate a directory listing along a non-empty segment path. -/
def lookupIn : EntryList → List String → Option Entry
  | es, [s] => findEntry es s
  | es, s :: rest =>
      match findEntry es s with
      | some (Entry.dir _ sub) => lookupIn sub rest
      | _ => none
  | _, [] => none

def lookupEntry (fs : FS) (p : FPath) : Option Entry :=
  lookupIn fs.root p

/-- `fs.statSync(p).isFile()` for an existing path. -/
def isFileB (fs : FS) (p : FPath) : Bool :=
  match lookupEntry fs p with
  | some (Entry.file _ _) => true
  | _ => false

/-- `fs.existsSync(p)`: the path names a file or a directory (the root always
exists). -/
def existsB (fs : FS) (p : FPath) : Bool :=
  p.isEmpty || (lookupEntry fs p).isSome

/-- The parsed statements of the file at `p`, empty when `p` is not a
readable, parsable file. -/
def fileStatements (fs : FS) (p : FPath) : List Statement :=
  match lookupEntry fs p with
  | some (Entry.file _ (some stmts)) => stmts
  | _ => []

/-- `parseExportsFromFile`: reading or parsing failure yields `[]` via the
surrounding `try ... catch`. -/
def parseExportsFromFile (fs : FS) (p : FPath) : List ExportInfo :=
  match lookupEntry fs p with
  | some (Entry.file _ (some stmts)) => stmts.flatMap extractStatement
  | _ => []

/-- A file directly (not via re-export) declares `name`: some extracted
fact is a non-re-export fact carrying that name. -/
def hasDirectFact (fs : FS) (name : String) (p : FPath) : Bool :=
  (parseExportsFromFile fs p).any fun ex => decide (ex.isReexport = false ∧ ex.name = name)

/-! ## FPath-string model -/

/-- Split the characters of a module specifier at `/` separators. -/
def splitSegsAux : List Char → List Char → List String
  | [], acc => [String.mk acc.reverse]
  | c :: rest, acc =>
      if c = '/' then String.mk acc.reverse :: splitSegsAux rest []
      else splitSegsAux rest (c :: acc)

def splitSegs (s : String) : List String :=
  splitSegsAux s.data []

/-- Apply the segments of a relative specifier to an absolute base directory,
as `path.resolve` does: `.` and empty segments are skipped, `..` drops the
last segment, anything else descends. -/
def applySegs (base : FPath) : List String → FPath
  | [] => base
  | "" :: rest => applySegs base rest
  | "." :: rest => applySegs base rest
  | ".." :: rest => applySegs base.dropLast rest
  | s :: rest => applySegs (base ++ [s]) rest

/-- `path.resolve(base, spec)` for a relative or bare specifier. -/
def resolvePath (base : FPath) (spec : String) : FPath :=
  applySegs base (splitSegs spec)

/-- The absolute path string of a segment path, as `path.join`/`path.resolve`
would print it. -/
def render (p : FPath) : String :=
  if p.isEmpty then "/" else p.foldl (fun acc seg => acc ++ "/" ++ seg) ""

/-- JavaScript `String.prototype.startsWith`. -/
def strStartsWith (s pre : String) : Bool :=
  pre.data.isPrefixOf s.data

/-- JavaScript `String.prototype.endsWith`. -/
def strEndsWith (s suf : String) : Bool :=
  suf.data.isSuffixOf s.data

def strDropRight (s : String) (n : Nat) : String :=
  String.mk (s.data.take (s.data.length - n))

/-- `idx.replace(/index\.(ts|tsx|js|jsx)$/, '')` on an index-file path. -/
def stripIndexSuffix (s : String) : String :=
  if strEndsWith s "index.tsx" then strDropRight s 9
  else if strEndsWith s "index.jsx" then strDropRight s 9
  else if strEndsWith s "index.ts" then strDropRight s 8
  else if strEndsWith s "index.js" then strDropRight s 8
  else s

/-- The source-file filter `/\.(ts|tsx|js|jsx)$/.test(p)` of
`buildExportMap`. -/
def extMatch (s : String) : Bool :=
  strEndsWith s ".ts" || strEndsWith s ".tsx" || strEndsWith s ".js" || strEndsWith s ".jsx"

/-- Membership of a string in a visited list (`Set.has`). -/
def memStr (x : String) : List String → Bool
  | [] => false
  | y :: rest => if y = x then true else memStr x rest

/-- First-match association-list lookup (`Map.has` / `Map.get`). -/
def lookupMap : List (String × String) → String → Option String
  | [], _ => none
  | (k, v) :: rest, key => if k = key then some v else lookupMap rest key

/-- Specification-side notion of a path lying within a directory: the
directory's segments are an initial run of the path's segments. -/
def pathWithin (dirP p : FPath) : Bool :=
  p.take dirP.length = dirP

/-- Modelled from the spec: the resolver imports `isRelativeImport` from
`./isRelativeImport.js`, whose source file is not part of the repository
snapshot.  Per the spec's glossary — "External specifier: a module reference
that is not a relative path" — a specifier is relative exactly when it is a
dot-leading path. -/
def isRelativeImport (s : String) : Bool :=
  strStartsWith s "."

/-- `resolveModuleFile.ts`: the candidate probing order — the literal
specifier, each supported extension appended, then each index-file variant
inside the specifier as a directory. -/
def moduleCandidates (spec : String) : List String :=
  [spec, spec ++ ".ts", spec ++ ".tsx", spec ++ ".js", spec ++ ".jsx",
    spec ++ "/index.ts", spec ++ "/index.tsx", spec ++ "/index.js", spec ++ "/index.jsx"]

/-- `resolveModuleFile`: the first candidate that exists as a file. -/
def resolveModuleFile (fs : FS) (baseDir : FPath) (spec : String) : Option FPath :=
  (moduleCandidates spec).findSome? fun cand =>
    let full := resolvePath baseDir cand
    if isFileB fs full then some full else none

/-! ## Barrel resolver (`resolveExportThroughBarrel.ts`) -/

/-- The `ResolveResult` record: the source leaves `external` undefined
(falsy) for non-external results, which the Boolean default models. -/
structure ResolveResult where
  resolved : String
  importName : String
  chain : List String
  external : Bool := false
deriving DecidableEq

/-- `checkExternalReexport`: the first fact re-exporting `targetExportName`
from a non-relative specifier. -/
def checkExternalReexport (exports : List ExportInfo) (targetExportName idx : String) :
    Option ResolveResult :=
  match exports with
  | [] => none
  | ex :: rest =>
      if ex.name = targetExportName ∧ ex.isReexport = true ∧ strTruthy ex.module = true ∧
          isRelativeImport (ex.module.getD "") = false then
        some { resolved := ex.module.getD "",
               importName := ex.localName.getD targetExportName,
               chain := [idx], external := true }
      else checkExternalReexport rest targetExportName idx

/-- `checkDirectExport`: the first non-re-export fact named
`targetExportName` resolves to the index file's containing directory. -/
def checkDirectExport (exports : List ExportInfo) (targetExportName idx : String) :
    Option ResolveResult :=
  match exports with
  | [] => none
  | ex :: rest =>
      if ex.name = targetExportName ∧ ex.isReexport = false then
        some { resolved := stripIndexSuffix idx, importName := targetExportName, chain := [idx] }
      else checkDirectExport rest targetExportName idx

/-- `checkRelativeReexport`: for each fact re-exporting `targetExportName`,
treat a non-relative specifier as external, otherwise resolve the specifier
to a file and accept it when it directly declares the fact's local name. -/
def checkRelativeReexport (fs : FS) (exports : List ExportInfo) (targetExportName : String)
    (dir : FPath) (idx : String) : Option ResolveResult :=
  match exports with
  | [] => none
  | ex :: rest =>
      if ex.name = targetExportName ∧ ex.isReexport = true ∧ strTruthy ex.module = true then
        if isRelativeImport (ex.module.getD "") = false then
          some { resolved := ex.module.getD "",
                 importName := ex.localName.getD targetExportName,
                 chain := [idx], external := true }
        else
          match resolveModuleFile fs dir (ex.module.getD "") with
          | some t =>
              let localName := ex.localName.getD targetExportName
              if isFileB fs t = true ∧
                  (parseExportsFromFile fs t).any
                    (fun fe => decide (fe.name = localName ∧ fe.isReexport = false)) = true then
                some { resolved := render t, importName := localName,
                       chain := [idx, render t] }
              else checkRelativeReexport fs rest targetExportName dir idx
          | none => checkRelativeReexport fs rest targetExportName dir idx
      else checkRelativeReexport fs rest targetExportName dir idx

/-- `checkWildcardReexport`: for each `export *` fact, resolve its specifier
to a file and accept it when that file's facts contain any fact named
`targetExportName`. -/
def checkWildcardReexport (fs : FS) (exports : List ExportInfo) (targetExportName : String)
    (dir : FPath) (idx : String) : Option ResolveResult :=
  match exports with
  | [] => none
  | ex :: rest =>
      if ex.name = "*" ∧ strTruthy ex.module = true then
        match resolveModuleFile fs dir (ex.module.getD "") with
        | some t =>
            if isFileB fs t = true ∧
                (parseExportsFromFile fs t).any
                  (fun fe => decide (fe.name = targetExportName)) = true then
              some { resolved := render t, importName := targetExportName,
                     chain := [idx, render t] }
            else checkWildcardReexport fs rest targetExportName dir idx
        | none => checkWildcardReexport fs rest targetExportName dir idx
      else checkWildcardReexport fs rest targetExportName dir idx

/-- `processIndexFile`: cycle-guard on the visited set, then the four
priority checks, in order. -/
def processIndexFile (fs : FS) (exportName : String) (dir idx : FPath)
    (visited : List String) : Option ResolveResult × List String :=
  let key := render idx
  if memStr key visited then (none, visited)
  else
    let visited1 := key :: visited
    let exports := parseExportsFromFile fs idx
    let result :=
      match checkExternalReexport exports exportName (render idx) with
      | some r => some r
      | none =>
          match checkDirectExport exports exportName (render idx) with
          | some r => some r
          | none =>
              match checkRelativeReexport fs exports exportName dir (render idx) with
              | some r => some r
              | none => checkWildcardReexport fs exports exportName dir (render idx)
    (result, visited1)

/-- The candidate index filenames, in priority order. -/
def indexFileNames : List String := ["index.ts", "index.tsx", "index.js", "index.jsx"]

/-- The first loop of `walkIndex`: process each existing index-file
candidate in order, returning the first match. -/
def walkIndexFiles (fs : FS) (exportName : String) (dir : FPath) :
    List String → List String → Option ResolveResult × List String
  | [], visited => (none, visited)
  | f :: rest, visited =>
      let idx := dir ++ [f]
      if existsB fs idx then
        match processIndexFile fs exportName dir idx visited with
        | (some r, visited1) => (some r, visited1)
        | (none, visited1) => walkIndexFiles fs exportName dir rest visited1
      else walkIndexFiles fs exportName dir rest visited

/-- The pending work of the mutually recursive trio `walkIndex` /
`processParentReexports` / `processSourceFileForReexports`. -/
inductive ResolveTask where
  | walk (dir : FPath)
  | files (names : List String) (dir : FPath)
  | stmts (ss : List Statement) (dir : FPath) (idxStr : String)

/-- The recursive engine of the resolver, with a fuel argument making the
mutual recursion structural.  `.walk` is `walkIndex` (index files first, then
parent re-exports), `.files` is the loop of `processParentReexports`, and
`.stmts` is `processSourceFileForReexports` over the file's top-level nodes. -/
def runResolver (fs : FS) (exportName : String) :
    Nat → ResolveTask → List String → Option ResolveResult × List String
  | 0, _, visited => (none, visited)
  | Nat.succ fuel, ResolveTask.walk dir, visited =>
      match walkIndexFiles fs exportName dir indexFileNames visited with
      | (some r, visited1) => (some r, visited1)
      | (none, visited1) => runResolver fs exportName fuel (ResolveTask.files indexFileNames dir) visited1
  | Nat.succ _, ResolveTask.files [] _, visited => (none, visited)
  | Nat.succ fuel, ResolveTask.files (f :: rest) dir, visited =>
      let idx := dir ++ [f]
      if existsB fs idx = true ∧ memStr (render idx) visited = false then
        match runResolver fs exportName fuel
            (ResolveTask.stmts (fileStatements fs idx) dir (render idx)) visited with
        | (some r, visited1) => (some r, visited1)
        | (none, visited1) => runResolver fs exportName fuel (ResolveTask.files rest dir) visited1
      else runResolver fs exportName fuel (ResolveTask.files rest dir) visited
  | Nat.succ _, ResolveTask.stmts [] _ _, visited => (none, visited)
  | Nat.succ fuel, ResolveTask.stmts (s :: rest) dir idxStr, visited =>
      match s with
      | Statement.exportDecl _ (some (ModSpec.strLit m)) =>
          match resolveModuleFile fs dir m with
          | some t =>
              let candidateDir := if isFileB fs t then t.dropLast else t
              if candidateDir ≠ dir then
                match runResolver fs exportName fuel (ResolveTask.walk candidateDir) visited with
                | (some res, visited1) =>
                    (some { resolved := res.resolved, importName := res.importName,
                            chain := idxStr :: res.chain }, visited1)
                | (none, visited1) =>
                    runResolver fs exportName fuel (ResolveTask.stmts rest dir idxStr) visited1
              else runResolver fs exportName fuel (ResolveTask.stmts rest dir idxStr) visited
          | none => runResolver fs exportName fuel (ResolveTask.stmts rest dir idxStr) visited
      | _ => runResolver fs exportName fuel (ResolveTask.stmts rest dir idxStr) visited

/-- `resolveExportThroughBarrel` with explicit fuel for the recursive
traversal: the traversal from the barrel directory with a fresh visited set,
then the quick-path fallback scoped by a string-prefix test against the
barrel directory's resolved path. -/
def resolveWithFuel (fuel : Nat) (fs : FS) (exportMap : List (String × String))
    (barrelDir : FPath) (exportName : String) : Option ResolveResult :=
  match runResolver fs exportName fuel (ResolveTask.walk barrelDir) [] with
  | (some r, _) => some r
  | (none, _) =>
      match lookupMap exportMap exportName with
      | some candidate =>
          if strStartsWith candidate (render barrelDir) then
            some { resolved := candidate, importName := exportName, chain := ["<exportMap>"] }
          else none
      | none => none

/-- `resolveExportThroughBarrel`.  Fuel `1` suffices: the theorem
`c6_resolution_terminates` proves the result identical for every larger
fuel, because `walkIndex` marks every existing index file of the directory
as visited before `processParentReexports` runs, and the latter skips
visited index files. -/
def resolveExportThroughBarrel (fs : FS) (exportMap : List (String × String))
    (barrelDir : FPath) (exportName : String) : Option ResolveResult :=
  resolveWithFuel 1 fs exportMap barrelDir exportName

/-! ## Directory export index (`buildExportMap.ts`) -/

/-- The per-file loop body of `buildExportMap.walk`: skip `*` facts, and add
each non-re-export fact whose name is not yet mapped. -/
def emAddFacts (m : List (String × String)) (pStr : String) :
    List ExportInfo → List (String × String)
  | [] => m
  | ex :: rest =>
      let m1 :=
        if ex.name = "*" then m
        else if ex.isReexport = false ∧ (lookupMap m ex.name).isNone then m ++ [(ex.name, pStr)]
        else m
      emAddFacts m1 pStr rest

/-- The recursive `walk` of `buildExportMap`, over a directory listing:
each entry is visited in `readdirSync` order, a subdirectory is walked
depth-first, and each source-eligible file contributes its extracted
facts. -/
def emWalkList (fs : FS) : EntryList → FPath → List (String × String) → List (String × String)
  | EntryList.nil, _, m => m
  | EntryList.cons (Entry.file nm _) rest, parent, m =>
      let p := parent ++ [nm]
      let m1 :=
        if extMatch (render p) then emAddFacts m (render p) (parseExportsFromFile fs p) else m
      emWalkList fs rest parent m1
  | EntryList.cons (Entry.dir nm sub) rest, parent, m =>
      emWalkList fs rest parent (emWalkList fs sub (parent ++ [nm]) m)

/-- The sequence of source-eligible files visited by the same depth-first
walk, in visiting order (specification-side companion of `emWalkList`). -/
def scanList : EntryList → FPath → List FPath
  | EntryList.nil, _ => []
  | EntryList.cons (Entry.file nm _) rest, parent =>
      let p := parent ++ [nm]
      if extMatch (render p) then p :: scanList rest parent else scanList rest parent
  | EntryList.cons (Entry.dir nm sub) rest, parent =>
      scanList sub (parent ++ [nm]) ++ scanList rest parent

/-- `buildExportMap`: resolve the root against `rootDir`, return the empty
map when the resolved path does not exist, otherwise walk it (a file target
is processed directly, a directory target is walked recursively). -/
def buildExportMap (fs : FS) (rootDir : FPath) (dir : String) : List (String × String) :=
  let dirAbs := resolvePath rootDir dir
  if existsB fs dirAbs then
    if dirAbs.isEmpty then emWalkList fs fs.root [] []
    else
      match lookupEntry fs dirAbs with
      | some (Entry.file _ _) =>
          if extMatch (render dirAbs) then
            emAddFacts [] (render dirAbs) (parseExportsFromFile fs dirAbs)
          else []
      | some (Entry.dir _ sub) => emWalkList fs sub dirAbs []
      | none => []
  else []

/-- The full scan order of `buildExportMap`'s walk (specification-side). -/
def scanFiles (fs : FS) (rootDir : FPath) (dir : String) : List FPath :=
  let dirAbs := resolvePath rootDir dir
  if existsB fs dirAbs then
    if dirAbs.isEmpty then scanList fs.root []
    else
      match lookupEntry fs dirAbs with
      | some (Entry.file _ _) => if extMatch (render dirAbs) then [dirAbs] else []
      | some (Entry.dir _ sub) => scanList sub dirAbs
      | none => []
  else []

/-! ## Concrete filesystem snapshots used by the claim theorems -/

/-- `export { B as A } from './child'` -/
def stmtReexportBasA : Statement :=
  Statement.exportDecl
    (some (ExportClause.named [{ name := "A", propertyName := some (PropName.ident "B") }]))
    (some (ModSpec.strLit "./child"))

/-- `export { N } from 'spec'` -/
def stmtReexport (n spec : String) : Statement :=
  Statement.exportDecl
    (some (ExportClause.named [{ name := n, propertyName := none }]))
    (some (ModSpec.strLit spec))

/-- `export * from 'spec'` -/
def stmtStar (spec : String) : Statement :=
  Statement.exportDecl none (some (ModSpec.strLit spec))

/-- `export const N = ...` -/
def stmtConst (n : String) : Statement :=
  Statement.varStmt true [BindingName.ident n]

/-- A two-layer aggregator with an alias: `/b/index.ts` re-exports `B` as
`A` from `./child`, whose own index re-exports `B` from `./impl`, and
`/b/child/impl.ts` declares `B` directly. -/
def fsC1 : FS :=
  { root := elOf
      [Entry.dir "b" (elOf
        [Entry.file "index.ts" (some [stmtReexportBasA]),
          Entry.dir "child" (elOf
            [Entry.file "index.ts" (some [stmtReexport "B" "./impl"]),
              Entry.file "impl.ts" (some [stmtConst "B"])])])] }

/-- A two-layer aggregator without aliasing: `/b/index.ts` re-exports `A`
from `./child`, whose own index re-exports `A` from `./impl`, and
`/b/child/impl.ts` declares `A` directly. -/
def fsC2 : FS :=
  { root := elOf
      [Entry.dir "b" (elOf
        [Entry.file "index.ts" (some [stmtReexport "A" "./child"]),
          Entry.dir "child" (elOf
            [Entry.file "index.ts" (some [stmtReexport "A" "./impl"]),
              Entry.file "impl.ts" (some [stmtConst "A"])])])] }

/-- A directory holding both an `index.ts` (with no exports) and an
`index.js` that declares `X` directly. -/
def fsC3 : FS :=
  { root := elOf
      [Entry.dir "b" (elOf
        [Entry.file "index.ts" (some []),
          Entry.file "index.js" (some [stmtConst "X"])])] }

/-- `/b/index.ts` is `export * from './sub'`; `/b/sub.ts` only re-exports
`Z` from `./other`; `/b/other.ts` declares `Z` directly. -/
def fsC4 : FS :=
  { root := elOf
      [Entry.dir "b" (elOf
        [Entry.file "index.ts" (some [stmtStar "./sub"]),
          Entry.file "sub.ts" (some [stmtReexport "Z" "./other"]),
          Entry.file "other.ts" (some [stmtConst "Z"])])] }

/-- Two unrelated barrels whose directory names are string-prefix related:
`/src/widgets` (empty) and `/src/widgets2`, the latter declaring `X`. -/
def fsC5 : FS :=
  { root := elOf
      [Entry.dir "src" (elOf
        [Entry.dir "widgets" EntryList.nil,
          Entry.dir "widgets2" (elOf [Entry.file "x.ts" (some [stmtConst "X"])])])] }

/-- A cyclic wildcard re-export pair: `/b/index.ts` is
`export * from './a'` and `/b/a.ts` is `export * from '.'` (which probes
back to `/b/index.ts`). -/
def fsCyc : FS :=
  { root := elOf
      [Entry.dir "b" (elOf
        [Entry.file "index.ts" (some [stmtStar "./a"]),
          Entry.file "a.ts" (some [stmtStar "."])])] }

/-- A barrel directory with no index file, holding only `/w/y.ts` which
declares `Y` directly. -/
def fsC10 : FS :=
  { root := elOf
      [Entry.dir "w" (elOf [Entry.file "y.ts" (some [stmtConst "Y"])])] }

/-- A subtree for the export-map builder: `/w/a.ts` declares `X` directly,
`/w/b.ts` re-exports `X`, and `/w/sub/c.ts` declares `X` directly as well
(visited after `a.ts`). -/
def fsC9 : FS :=
  { root := elOf
      [Entry.dir "w" (elOf
        [Entry.file "a.ts" (some [stmtConst "X"]),
          Entry.file "b.ts" (some [stmtReexport "X" "./a"]),
          Entry.dir "sub" (elOf [Entry.file "c.ts" (some [stmtConst "X"])])])] }

/-! ## Helper lemmas: the extractor on destructuring patterns -/

theorem arrayElemFacts_eq_map (el : ArrayElem) :
    arrayElemFacts el = (arrayElemBoundNames el).map fun s => ({ name := s } : ExportInfo) := by
  match el with
  | ArrayElem.omitted => rfl
  | ArrayElem.binding pn (BindingName.ident s) =>
      match pn with
      | none => rfl
      | some (PropName.ident t) => rfl
      | some PropName.nonIdent => rfl
  | ArrayElem.binding pn (BindingName.arrayPattern es) =>
      match pn with
      | none => rfl
      | some (PropName.ident t) => rfl
      | some PropName.nonIdent => rfl
  | ArrayElem.binding pn (BindingName.objectPattern es) =>
      match pn with
      | none => rfl
      | some (PropName.ident t) => rfl
      | some PropName.nonIdent => rfl

theorem objectElemFacts_eq_map (el : ObjectElem) :
    objectElemFacts el = (objectElemBoundNames el).map fun s => ({ name := s } : ExportInfo) := by
  match el with
  | ObjectElem.binding pn (BindingName.ident s) => rfl
  | ObjectElem.binding pn (BindingName.arrayPattern es) => rfl
  | ObjectElem.binding pn (BindingName.objectPattern es) => rfl

theorem flatMap_arrayElemFacts (elems : List ArrayElem) :
    elems.flatMap arrayElemFacts =
      (elems.flatMap arrayElemBoundNames).map fun s => ({ name := s } : ExportInfo) := by
  induction elems with
  | nil => rfl
  | cons el rest ih =>
      simp only [List.flatMap_cons, List.map_append, ih, arrayElemFacts_eq_map]

theorem flatMap_objectElemFacts (elems : List ObjectElem) :
    elems.flatMap objectElemFacts =
      (elems.flatMap objectElemBoundNames).map fun s => ({ name := s } : ExportInfo) := by
  induction elems with
  | nil => rfl
  | cons el rest ih =>
      simp only [List.flatMap_cons, List.map_append, ih, objectElemFacts_eq_map]

/-! ## Helper lemmas: the visited set and the ascension loop -/

theorem memStr_mono (x y : String) (V : List String) (h : memStr x V = true) :
    memStr x (y :: V) = true := by
  simp only [memStr]
  split
  · rfl
  · exact h

theorem memStr_head (x : String) (V : List String) : memStr x (x :: V) = true := by
  simp [memStr]

theorem processIndexFile_visited (fs : FS) (name : String) (dir idx : FPath)
    (V : List String) (res : Option ResolveResult) (V1 : List String)
    (h : processIndexFile fs name dir idx V = (res, V1)) :
    (∀ s, memStr s V = true → memStr s V1 = true) ∧ memStr (render idx) V1 = true := by
  unfold processIndexFile at h
  by_cases hm : memStr (render idx) V = true
  · rw [if_pos hm] at h
    obtain ⟨-, h2⟩ := Prod.mk.injEq .. ▸ h
    subst h2
    exact ⟨fun s hs => hs, hm⟩
  · rw [if_neg hm] at h
    obtain ⟨-, h2⟩ := Prod.mk.injEq .. ▸ h
    subst h2
    exact ⟨fun s hs => memStr_mono s (render idx) V hs, memStr_head (render idx) V⟩

theorem walkIndexFiles_visited (fs : FS) (name : String) (dir : FPath) :
    ∀ (names : List String) (V V1 : List String),
      walkIndexFiles fs name dir names V = (none, V1) →
      (∀ s, memStr s V = true → memStr s V1 = true) ∧
      ∀ f, f ∈ names → existsB fs (dir ++ [f]) = true → memStr (render (dir ++ [f])) V1 = true := by
  intro names
  induction names with
  | nil =>
      intro V V1 h
      simp only [walkIndexFiles] at h
      obtain ⟨-, h2⟩ := Prod.mk.injEq .. ▸ h
      subst h2
      exact ⟨fun s hs => hs, fun f hf => absurd hf (List.not_mem_nil f)⟩
  | cons f rest ih =>
      intro V V1 h
      simp only [walkIndexFiles] at h
      by_cases hex : existsB fs (dir ++ [f]) = true
      · rw [if_pos hex] at h
        rcases hpi : processIndexFile fs name dir (dir ++ [f]) V with ⟨res, V2⟩
        rw [hpi] at h
        rcases res with - | r
        · have hmono := processIndexFile_visited fs name dir (dir ++ [f]) V none V2 hpi
          have hrest := ih V2 V1 h
          refine ⟨fun s hs => hrest.1 s (hmono.1 s hs), ?_⟩
          intro g hg hgex
          rcases List.mem_cons.mp hg with hg | hg
          · subst hg
            exact hrest.1 (render (dir ++ [g])) hmono.2
          · exact hrest.2 g hg hgex
        · exact absurd h (by simp)
      · rw [if_neg hex] at h
        have hrest := ih V V1 h
        refine ⟨hrest.1, ?_⟩
        intro g hg hgex
        rcases List.mem_cons.mp hg with hg | hg
        · subst hg
          exact absurd hgex hex
        · exact hrest.2 g hg hgex

theorem runResolver_files_dead (fs : FS) (name : String) (dir : FPath) :
    ∀ (fuel : Nat) (names : List String) (V : List String),
      (∀ f, f ∈ names → existsB fs (dir ++ [f]) = true → memStr (render (dir ++ [f])) V = true) →
      runResolver fs name fuel (ResolveTask.files names dir) V = (none, V) := by
  intro fuel
  induction fuel with
  | zero => intro names V _; rfl
  | succ fuel ih =>
      intro names V hall
      match names with
      | [] => rfl
      | f :: rest =>
          have hcond : ¬(existsB fs (dir ++ [f]) = true ∧
              memStr (render (dir ++ [f])) V = false) := by
            rintro ⟨h1, h2⟩
            rw [hall f (List.mem_cons_self f rest) h1] at h2
            exact Bool.noConfusion h2
          simp only [runResolver]
          rw [if_neg hcond]
          exact ih rest V fun g hg => hall g (List.mem_cons_of_mem f hg)

theorem runResolver_walk_stable (fs : FS) (name : String) (dir : FPath) (V : List String)
    (fuel : Nat) :
    runResolver fs name (fuel + 1) (ResolveTask.walk dir) V =
      runResolver fs name 1 (ResolveTask.walk dir) V := by
  simp only [runResolver]
  rcases hw : walkIndexFiles fs name dir indexFileNames V with ⟨res, V1⟩
  rcases res with - | r
  · have hvis := walkIndexFiles_visited fs name dir indexFileNames V V1 hw
    show runResolver fs name fuel (ResolveTask.files indexFileNames dir) V1 = (none, V1)
    exact runResolver_files_dead fs name dir fuel indexFileNames V1 hvis.2
  · rfl

/-! ## Helper lemmas: shapes of successful checks -/

theorem checkExternalReexport_chain (name idx : String) :
    ∀ (exports : List ExportInfo) (r : ResolveResult),
      checkExternalReexport exports name idx = some r → r.chain = [idx] := by
  intro exports
  induction exports with
  | nil => intro r h; exact Option.noConfusion h
  | cons ex rest ih =>
      intro r h
      simp only [checkExternalReexport] at h
      split at h
      · cases h; rfl
      · exact ih r h

theorem checkDirectExport_chain (name idx : String) :
    ∀ (exports : List ExportInfo) (r : ResolveResult),
      checkDirectExport exports name idx = some r → r.chain = [idx] := by
  intro exports
  induction exports with
  | nil => intro r h; exact Option.noConfusion h
  | cons ex rest ih =>
      intro r h
      simp only [checkDirectExport] at h
      split at h
      · cases h; rfl
      · exact ih r h

theorem checkRelativeReexport_chain (fs : FS) (name : String) (dir : FPath) (idx : String) :
    ∀ (exports : List ExportInfo) (r : ResolveResult),
      checkRelativeReexport fs exports name dir idx = some r →
      r.chain = [idx] ∨ r.chain = [idx, r.resolved] := by
  intro exports
  induction exports with
  | nil => intro r h; exact Option.noConfusion h
  | cons ex rest ih =>
      intro r h
      simp only [checkRelativeReexport] at h
      by_cases hc : ex.name = name ∧ ex.isReexport = true ∧ strTruthy ex.module = true
      · rw [if_pos hc] at h
        by_cases hrel : isRelativeImport (ex.module.getD "") = false
        · rw [if_pos hrel] at h
          cases h
          exact Or.inl rfl
        · rw [if_neg hrel] at h
          rcases hmod : resolveModuleFile fs dir (ex.module.getD "") with _ | t
          · rw [hmod] at h
            exact ih r h
          · rw [hmod] at h
            have h9 : (if isFileB fs t = true ∧
                  (parseExportsFromFile fs t).any
                    (fun fe =>
                      decide (fe.name = ex.localName.getD name ∧ fe.isReexport = false)) = true then
                some { resolved := render t, importName := ex.localName.getD name,
                       chain := [idx, render t], external := false }
              else checkRelativeReexport fs rest name dir idx) = some r := h
            by_cases hfa : isFileB fs t = true ∧
                (parseExportsFromFile fs t).any
                  (fun fe => decide (fe.name = ex.localName.getD name ∧ fe.isReexport = false)) = true
            · rw [if_pos hfa] at h9
              cases h9
              exact Or.inr rfl
            · rw [if_neg hfa] at h9
              exact ih r h9
      · rw [if_neg hc] at h
        exact ih r h

theorem checkWildcardReexport_chain (fs : FS) (name : String) (dir : FPath) (idx : String) :
    ∀ (exports : List ExportInfo) (r : ResolveResult),
      checkWildcardReexport fs exports name dir idx = some r →
      r.chain = [idx, r.resolved] := by
  intro exports
  induction exports with
  | nil => intro r h; exact Option.noConfusion h
  | cons ex rest ih =>
      intro r h
      simp only [checkWildcardReexport] at h
      by_cases hc : ex.name = "*" ∧ strTruthy ex.module = true
      · rw [if_pos hc] at h
        rcases hmod : resolveModuleFile fs dir (ex.module.getD "") with _ | t
        · rw [hmod] at h
          exact ih r h
        · rw [hmod] at h
          have h9 : (if isFileB fs t = true ∧
                (parseExportsFromFile fs t).any (fun fe => decide (fe.name = name)) = true then
              some { resolved := render t, importName := name,
                     chain := [idx, render t], external := false }
            else checkWildcardReexport fs rest name dir idx) = some r := h
          by_cases hfa : isFileB fs t = true ∧
              (parseExportsFromFile fs t).any (fun fe => decide (fe.name = name)) = true
          · rw [if_pos hfa] at h9
            cases h9
            rfl
          · rw [if_neg hfa] at h9
            exact ih r h9
      · rw [if_neg hc] at h
        exact ih r h

theorem processIndexFile_chain (fs : FS) (name : String) (dir idx : FPath)
    (V : List String) (r : ResolveResult) (V1 : List String)
    (h : processIndexFile fs name dir idx V = (some r, V1)) :
    r.chain = [render idx] ∨ r.chain = [render idx, r.resolved] := by
  unfold processIndexFile at h
  by_cases hm : memStr (render idx) V = true
  · rw [if_pos hm] at h
    exact absurd (congrArg Prod.fst h) (by simp)
  · rw [if_neg hm] at h
    have hres : (match checkExternalReexport (parseExportsFromFile fs idx) name (render idx) with
        | some r => some r
        | none =>
            match checkDirectExport (parseExportsFromFile fs idx) name (render idx) with
            | some r => some r
            | none =>
                match checkRelativeReexport fs (parseExportsFromFile fs idx) name dir (render idx) with
                | some r => some r
                | none => checkWildcardReexport fs (parseExportsFromFile fs idx) name dir (render idx)) =
        some r := congrArg Prod.fst h
    cases h1 : checkExternalReexport (parseExportsFromFile fs idx) name (render idx) with
    | some r1 =>
        rw [h1] at hres
        cases hres
        exact Or.inl (checkExternalReexport_chain name (render idx) _ r h1)
    | none =>
        rw [h1] at hres
        cases h2 : checkDirectExport (parseExportsFromFile fs idx) name (render idx) with
        | some r2 =>
            rw [h2] at hres
            cases hres
            exact Or.inl (checkDirectExport_chain name (render idx) _ r h2)
        | none =>
            rw [h2] at hres
            cases h3 : checkRelativeReexport fs (parseExportsFromFile fs idx) name dir
                (render idx) with
            | some r3 =>
                rw [h3] at hres
                cases hres
                exact checkRelativeReexport_chain fs name dir (render idx) _ r h3
            | none =>
                rw [h3] at hres
                exact Or.inr (checkWildcardReexport_chain fs name dir (render idx) _ r hres)

theorem walkIndexFiles_chain (fs : FS) (name : String) (dir : FPath) :
    ∀ (names : List String) (V : List String) (r : ResolveResult) (V1 : List String),
      walkIndexFiles fs name dir names V = (some r, V1) →
      ∃ f, f ∈ names ∧
        (r.chain = [render (dir ++ [f])] ∨ r.chain = [render (dir ++ [f]), r.resolved]) := by
  intro names
  induction names with
  | nil =>
      intro V r V1 h
      simp only [walkIndexFiles] at h
      exact absurd (congrArg Prod.fst h) (by simp)
  | cons f rest ih =>
      intro V r V1 h
      simp only [walkIndexFiles] at h
      by_cases hex : existsB fs (dir ++ [f]) = true
      · rw [if_pos hex] at h
        rcases hpi : processIndexFile fs name dir (dir ++ [f]) V with ⟨res, V2⟩
        rw [hpi] at h
        rcases res with - | r2
        · obtain ⟨g, hg, hch⟩ := ih V2 r V1 h
          exact ⟨g, List.mem_cons_of_mem f hg, hch⟩
        · obtain ⟨h1, -⟩ := Prod.mk.injEq .. ▸ h
          obtain h1 := Option.some.inj h1
          exact ⟨f, List.mem_cons_self f rest,
            h1 ▸ processIndexFile_chain fs name dir (dir ++ [f]) V r2 V2 hpi⟩
      · rw [if_neg hex] at h
        obtain ⟨g, hg, hch⟩ := ih V r V1 h
        exact ⟨g, List.mem_cons_of_mem f hg, hch⟩

theorem runResolver_walk_some (fs : FS) (name : String) (dir : FPath)
    (V : List String) (r : ResolveResult) (V1 : List String)
    (h : runResolver fs name 1 (ResolveTask.walk dir) V = (some r, V1)) :
    walkIndexFiles fs name dir indexFileNames V = (some r, V1) := by
  simp only [runResolver] at h
  rcases hw : walkIndexFiles fs name dir indexFileNames V with ⟨res, V2⟩
  rw [hw] at h
  rcases res with _ | r2
  · exact absurd (congrArg Prod.fst h) (by simp)
  · exact h

theorem walkIndexFiles_none_of_missing (fs : FS) (name : String) (dir : FPath) :
    ∀ (names : List String) (V : List String),
      (∀ f, f ∈ names → existsB fs (dir ++ [f]) = false) →
      walkIndexFiles fs name dir names V = (none, V) := by
  intro names
  induction names with
  | nil => intro V _; rfl
  | cons f rest ih =>
      intro V hall
      simp only [walkIndexFiles]
      rw [if_neg (by rw [hall f (List.mem_cons_self f rest)]; exact Bool.noConfusion)]
      exact ih V fun g hg => hall g (List.mem_cons_of_mem f hg)

/-- One step of the first loop of `walkIndex`: an existing candidate that
matches ends the loop. -/
theorem walkIndexFiles_step_some (fs : FS) (name : String) (dir : FPath) (f : String)
    (rest : List String) (V V1 : List String) (r : ResolveResult)
    (hex : existsB fs (dir ++ [f]) = true)
    (hpi : processIndexFile fs name dir (dir ++ [f]) V = (some r, V1)) :
    walkIndexFiles fs name dir (f :: rest) V = (some r, V1) := by
  simp only [walkIndexFiles]
  rw [if_pos hex, hpi]

/-- One step of the first loop of `walkIndex`: an existing candidate that
yields no match passes its updated visited set to the next candidate. -/
theorem walkIndexFiles_step_none (fs : FS) (name : String) (dir : FPath) (f : String)
    (rest : List String) (V V1 : List String)
    (hex : existsB fs (dir ++ [f]) = true)
    (hpi : processIndexFile fs name dir (dir ++ [f]) V = (none, V1)) :
    walkIndexFiles fs name dir (f :: rest) V = walkIndexFiles fs name dir rest V1 := by
  simp only [walkIndexFiles]
  rw [if_pos hex, hpi]

/-- One step of the first loop of `walkIndex`: a missing candidate is
skipped. -/
theorem walkIndexFiles_step_missing (fs : FS) (name : String) (dir : FPath) (f : String)
    (rest : List String) (V : List String)
    (hex : existsB fs (dir ++ [f]) = false) :
    walkIndexFiles fs name dir (f :: rest) V = walkIndexFiles fs name dir rest V := by
  simp only [walkIndexFiles]
  rw [if_neg (by rw [hex]; exact Bool.noConfusion)]

/-! ## Claim theorems -/

/-- C6: every resolution call terminates, even on cyclic graphs of index
files and re-export specifiers.  The recursion depth of the traversal is
uniformly bounded: giving the recursive engine any amount of extra fuel
beyond `1` never changes the result, because the per-call visited set
(keyed by absolute file path) already contains every existing index file of
a directory by the time the ascension loop would recurse, so no index file
is processed twice and a cyclic chain merely terminates that branch. -/
theorem c6_resolution_terminates (fs : FS) (exportMap : List (String × String))
    (barrelDir : FPath) (exportName : String) (fuel : Nat) :
    resolveWithFuel (fuel + 1) fs exportMap barrelDir exportName =
      resolveExportThroughBarrel fs exportMap barrelDir exportName := by
  unfold resolveExportThroughBarrel resolveWithFuel
  rw [runResolver_walk_stable]

/-- C10 (amended): in every successful resolution, the `resolutionChain` is
either `[idx]` for an index file of the barrel directory (external or
locally-declared match), or `[idx, r.resolved]` — the index file followed by
the defining target file, which is not itself an aggregator — or the
sentinel `["<exportMap>"]` produced by the quick-path fallback; it is not a
list of aggregator index files only. -/
theorem c10_chain_shape (fs : FS) (exportMap : List (String × String)) (barrelDir : FPath)
    (exportName : String) (r : ResolveResult)
    (h : resolveExportThroughBarrel fs exportMap barrelDir exportName = some r) :
    (∃ f, f ∈ indexFileNames ∧
      (r.chain = [render (barrelDir ++ [f])] ∨
        r.chain = [render (barrelDir ++ [f]), r.resolved])) ∨
    (r.chain = ["<exportMap>"] ∧ lookupMap exportMap exportName = some r.resolved ∧
      r.importName = exportName) := by
  unfold resolveExportThroughBarrel resolveWithFuel at h
  rcases hrun : runResolver fs exportName 1 (ResolveTask.walk barrelDir) [] with ⟨res, V1⟩
  rw [hrun] at h
  rcases res with _ | r2
  · cases hlk : lookupMap exportMap exportName with
    | none =>
        rw [hlk] at h
        exact Option.noConfusion h
    | some c =>
        rw [hlk] at h
        have h9 : (if strStartsWith c (render barrelDir) = true then
            some { resolved := c, importName := exportName, chain := ["<exportMap>"],
                   external := false }
          else (none : Option ResolveResult)) = some r := h
        by_cases hsw : strStartsWith c (render barrelDir) = true
        · rw [if_pos hsw] at h9
          cases h9
          exact Or.inr ⟨rfl, rfl, rfl⟩
        · rw [if_neg hsw] at h9
          exact Option.noConfusion h9
  · have h9 : (some r2 : Option ResolveResult) = some r := h
    cases h9
    exact Or.inl (walkIndexFiles_chain fs exportName barrelDir indexFileNames [] r V1
      (runResolver_walk_some fs exportName barrelDir [] r V1 hrun))

/-- C5 (amended): whatever the quick-path fallback returns has a defining
path that is a *string* extension of the barrel directory's resolved path
(`String.prototype.startsWith`), comes from the supplied map, and carries
the sentinel chain.  The scoping test is a plain string-prefix check, not a
path-containment check. -/
theorem c5_quick_path_scoping (fs : FS) (exportMap : List (String × String)) (barrelDir : FPath)
    (exportName : String) (r : ResolveResult)
    (hwalk : (runResolver fs exportName 1 (ResolveTask.walk barrelDir) []).1 = none)
    (h : resolveExportThroughBarrel fs exportMap barrelDir exportName = some r) :
    lookupMap exportMap exportName = some r.resolved ∧
    strStartsWith r.resolved (render barrelDir) = true ∧
    r.importName = exportName ∧ r.chain = ["<exportMap>"] := by
  unfold resolveExportThroughBarrel resolveWithFuel at h
  rcases hrun : runResolver fs exportName 1 (ResolveTask.walk barrelDir) [] with ⟨res, V1⟩
  rw [hrun] at h
  rw [hrun] at hwalk
  rcases res with _ | r2
  · cases hlk : lookupMap exportMap exportName with
    | none =>
        rw [hlk] at h
        exact Option.noConfusion h
    | some c =>
        rw [hlk] at h
        have h9 : (if strStartsWith c (render barrelDir) = true then
            some { resolved := c, importName := exportName, chain := ["<exportMap>"],
                   external := false }
          else (none : Option ResolveResult)) = some r := h
        by_cases hsw : strStartsWith c (render barrelDir) = true
        · rw [if_pos hsw] at h9
          cases h9
          exact ⟨rfl, hsw, rfl, rfl⟩
        · rw [if_neg hsw] at h9
          exact Option.noConfusion h9
  · exact absurd hwalk (by simp)

/-- C7: neither the extractor nor the resolver signals failure by anything
but its ordinary return value.  Unreadable or unparsable input (no readable,
parsed file at the path) yields the empty fact sequence; a missing index
file combined with an absent or scope-mismatched fallback entry yields the
explicit no-match value `none`; and a cyclic wildcard re-export pair also
yields `none` rather than diverging or failing. -/
theorem c7_no_exceptions :
    (∀ (fs : FS) (p : FPath),
        (∀ (nm : String) (stmts : List Statement),
          lookupEntry fs p ≠ some (Entry.file nm (some stmts))) →
        parseExportsFromFile fs p = []) ∧
    (∀ (fs : FS) (exportMap : List (String × String)) (barrelDir : FPath) (exportName : String),
        (∀ f, f ∈ indexFileNames → existsB fs (barrelDir ++ [f]) = false) →
        (∀ c, lookupMap exportMap exportName = some c →
          strStartsWith c (render barrelDir) = false) →
        resolveExportThroughBarrel fs exportMap barrelDir exportName = none) ∧
    resolveExportThroughBarrel fsCyc [] ["b"] "X" = none := by
  refine ⟨?_, ?_, by decide⟩
  · intro fs p hno
    unfold parseExportsFromFile
    cases hlk : lookupEntry fs p with
    | none => rfl
    | some e =>
        cases e with
        | file nm data =>
            cases data with
            | none => rfl
            | some stmts => exact absurd hlk (hno nm stmts)
        | dir nm es => rfl
  · intro fs exportMap barrelDir exportName hmiss hscope
    unfold resolveExportThroughBarrel resolveWithFuel
    have hrun : runResolver fs exportName 1 (ResolveTask.walk barrelDir) [] = (none, []) := by
      simp only [runResolver]
      rw [walkIndexFiles_none_of_missing fs exportName barrelDir indexFileNames [] hmiss]
    rw [hrun]
    cases hlk : lookupMap exportMap exportName with
    | none => rfl
    | some c =>
        show (if strStartsWith c (render barrelDir) = true then
            some { resolved := c, importName := exportName, chain := ["<exportMap>"],
                   external := false }
          else (none : Option ResolveResult)) = none
        rw [if_neg (by rw [hscope c hlk]; exact Bool.noConfusion)]

/-- C3 (amended): the index-file candidates of a directory are consulted in
the fixed priority order `index.ts`, `index.tsx`, `index.js`, `index.jsx`,
and the first candidate that yields a match wins; but when a
higher-priority index file exists and yields no match, the lower-priority
candidates are consulted as well, so an export declared only in `index.js`
is found even though `index.ts` coexists in the directory. -/
theorem c3_index_priority_first_match (fs : FS) (exportName : String) (dir : FPath)
    (V V1 V2 : List String) (r : ResolveResult) :
    (existsB fs (dir ++ ["index.ts"]) = true →
      processIndexFile fs exportName dir (dir ++ ["index.ts"]) V = (some r, V1) →
      walkIndexFiles fs exportName dir indexFileNames V = (some r, V1)) ∧
    (existsB fs (dir ++ ["index.ts"]) = true →
      processIndexFile fs exportName dir (dir ++ ["index.ts"]) V = (none, V1) →
      existsB fs (dir ++ ["index.tsx"]) = false →
      existsB fs (dir ++ ["index.js"]) = true →
      processIndexFile fs exportName dir (dir ++ ["index.js"]) V1 = (some r, V2) →
      walkIndexFiles fs exportName dir indexFileNames V = (some r, V2)) := by
  constructor
  · intro hex hpi
    show walkIndexFiles fs exportName dir ["index.ts", "index.tsx", "index.js", "index.jsx"] V =
      (some r, V1)
    rw [walkIndexFiles_step_some fs exportName dir "index.ts" _ V V1 r hex hpi]
  · intro hex1 hpi1 hex2 hex3 hpi2
    show walkIndexFiles fs exportName dir ["index.ts", "index.tsx", "index.js", "index.jsx"] V =
      (some r, V2)
    rw [walkIndexFiles_step_none fs exportName dir "index.ts" _ V V1 hex1 hpi1,
      walkIndexFiles_step_missing fs exportName dir "index.tsx" _ V1 hex2,
      walkIndexFiles_step_some fs exportName dir "index.js" _ V1 V2 r hex3 hpi2]

/-- C4 (amended): resolution through a wildcard re-export fact succeeds
exactly when some `export *` fact's specifier resolves to a concrete file
whose extracted facts contain *any* fact named `requestedName` — a
re-export fact counts as well, the check does not require a direct
(non-re-export) declaration — and the result is that file with the
exported name equal to the requested name, unchanged. -/
theorem c4_wildcard_characterization (fs : FS) (name : String) (dir : FPath) (idx : String) :
    ∀ exports : List ExportInfo,
      ((checkWildcardReexport fs exports name dir idx).isSome = true ↔
        ∃ ex, ex ∈ exports ∧ ex.name = "*" ∧ strTruthy ex.module = true ∧
          ∃ t, resolveModuleFile fs dir (ex.module.getD "") = some t ∧ isFileB fs t = true ∧
            (parseExportsFromFile fs t).any (fun fe => decide (fe.name = name)) = true) ∧
      (∀ r, checkWildcardReexport fs exports name dir idx = some r →
        r.importName = name ∧ r.external = false ∧
        ∃ t, r.resolved = render t ∧ r.chain = [idx, render t] ∧ isFileB fs t = true ∧
          (parseExportsFromFile fs t).any (fun fe => decide (fe.name = name)) = true) := by
  intro exports
  induction exports with
  | nil =>
      refine ⟨⟨fun h => ?_, fun h => ?_⟩, fun r h => Option.noConfusion h⟩
      · simp [checkWildcardReexport] at h
      · obtain ⟨ex, hmem, -⟩ := h
        exact absurd hmem (List.not_mem_nil ex)
  | cons ex rest ih =>
      by_cases hc : ex.name = "*" ∧ strTruthy ex.module = true
      · cases hmod : resolveModuleFile fs dir (ex.module.getD "") with
        | some t =>
            by_cases hfa : isFileB fs t = true ∧
                (parseExportsFromFile fs t).any (fun fe => decide (fe.name = name)) = true
            · have hval : checkWildcardReexport fs (ex :: rest) name dir idx =
                  some { resolved := render t, importName := name, chain := [idx, render t],
                         external := false } := by
                simp only [checkWildcardReexport]
                rw [if_pos hc, hmod]
                show (if isFileB fs t = true ∧
                      (parseExportsFromFile fs t).any (fun fe => decide (fe.name = name)) = true
                    then some { resolved := render t, importName := name,
                                chain := [idx, render t], external := false }
                    else checkWildcardReexport fs rest name dir idx) = _
                rw [if_pos hfa]
              refine ⟨⟨fun _ => ?_, fun _ => ?_⟩, fun r h => ?_⟩
              · exact ⟨ex, List.mem_cons_self ex rest, hc.1, hc.2, t, hmod, hfa.1, hfa.2⟩
              · rw [hval]; rfl
              · rw [hval] at h
                cases h
                exact ⟨rfl, rfl, t, rfl, rfl, hfa.1, hfa.2⟩
            · have hval : checkWildcardReexport fs (ex :: rest) name dir idx =
                  checkWildcardReexport fs rest name dir idx := by
                simp only [checkWildcardReexport]
                rw [if_pos hc, hmod]
                show (if isFileB fs t = true ∧
                      (parseExportsFromFile fs t).any (fun fe => decide (fe.name = name)) = true
                    then some { resolved := render t, importName := name,
                                chain := [idx, render t], external := false }
                    else checkWildcardReexport fs rest name dir idx) = _
                rw [if_neg hfa]
              refine ⟨⟨fun h => ?_, fun h => ?_⟩, fun r h => ?_⟩
              · rw [hval] at h
                obtain ⟨ex0, hmem0, hrest⟩ := (ih.1).mp h
                exact ⟨ex0, List.mem_cons_of_mem ex hmem0, hrest⟩
              · obtain ⟨ex0, hmem0, hstar0, htr0, t0, hmod0, hfile0, hany0⟩ := h
                rw [hval]
                rcases List.mem_cons.mp hmem0 with he | hr
                · subst he
                  rw [hmod] at hmod0
                  obtain rfl := Option.some.inj hmod0
                  exact absurd ⟨hfile0, hany0⟩ hfa
                · exact (ih.1).mpr ⟨ex0, hr, hstar0, htr0, t0, hmod0, hfile0, hany0⟩
              · rw [hval] at h
                exact ih.2 r h
        | none =>
            have hval : checkWildcardReexport fs (ex :: rest) name dir idx =
                checkWildcardReexport fs rest name dir idx := by
              simp only [checkWildcardReexport]
              rw [if_pos hc, hmod]
            refine ⟨⟨fun h => ?_, fun h => ?_⟩, fun r h => ?_⟩
            · rw [hval] at h
              obtain ⟨ex0, hmem0, hrest⟩ := (ih.1).mp h
              exact ⟨ex0, List.mem_cons_of_mem ex hmem0, hrest⟩
            · obtain ⟨ex0, hmem0, hstar0, htr0, t0, hmod0, hfile0, hany0⟩ := h
              rw [hval]
              rcases List.mem_cons.mp hmem0 with he | hr
              · subst he
                rw [hmod] at hmod0
                exact Option.noConfusion hmod0
              · exact (ih.1).mpr ⟨ex0, hr, hstar0, htr0, t0, hmod0, hfile0, hany0⟩
            · rw [hval] at h
              exact ih.2 r h
      · have hval : checkWildcardReexport fs (ex :: rest) name dir idx =
            checkWildcardReexport fs rest name dir idx := by
          simp only [checkWildcardReexport]
          rw [if_neg hc]
        refine ⟨⟨fun h => ?_, fun h => ?_⟩, fun r h => ?_⟩
        · rw [hval] at h
          obtain ⟨ex0, hmem0, hrest⟩ := (ih.1).mp h
          exact ⟨ex0, List.mem_cons_of_mem ex hmem0, hrest⟩
        · obtain ⟨ex0, hmem0, hstar0, htr0, hrest⟩ := h
          rw [hval]
          rcases List.mem_cons.mp hmem0 with he | hr
          · subst he
            exact absurd ⟨hstar0, htr0⟩ hc
          · exact (ih.1).mpr ⟨ex0, hr, hstar0, htr0, hrest⟩
        · rw [hval] at h
          exact ih.2 r h

/-! ## Helper lemmas: the export-map builder -/

theorem lookupMap_append_self (k v : String) :
    ∀ m : List (String × String), lookupMap m k = none →
      lookupMap (m ++ [(k, v)]) k = some v := by
  intro m
  induction m with
  | nil => intro _; simp [lookupMap]
  | cons kv rest ih =>
      intro h
      simp only [lookupMap] at h ⊢
      by_cases hk : kv.1 = k
      · rcases kv with ⟨k1, v1⟩
        simp only at hk
        rw [if_pos hk] at h
        exact Option.noConfusion h
      · rcases kv with ⟨k1, v1⟩
        simp only at hk
        rw [if_neg hk] at h ⊢
        exact ih h

theorem lookupMap_append_other (k v key : String) (hk : k ≠ key) :
    ∀ m : List (String × String), lookupMap (m ++ [(k, v)]) key = lookupMap m key := by
  intro m
  induction m with
  | nil => simp [lookupMap, hk]
  | cons kv rest ih =>
      rcases kv with ⟨k1, v1⟩
      simp only [List.cons_append, lookupMap]
      by_cases h1 : k1 = key
      · rw [if_pos h1, if_pos h1]
      · rw [if_neg h1, if_neg h1]
        exact ih

theorem emAddFacts_lookup (pStr name : String) (hname : name ≠ "*") :
    ∀ (facts : List ExportInfo) (m : List (String × String)),
      lookupMap (emAddFacts m pStr facts) name =
        match lookupMap m name with
        | some v => some v
        | none =>
            if facts.any (fun ex => decide (ex.isReexport = false ∧ ex.name = name)) then
              some pStr
            else none := by
  intro facts
  induction facts with
  | nil =>
      intro m
      simp only [emAddFacts, List.any_nil]
      cases lookupMap m name <;> rfl
  | cons ex rest ih =>
      intro m
      simp only [emAddFacts, List.any_cons]
      by_cases hstar : ex.name = "*"
      · rw [if_pos hstar, ih m]
        have helig : decide (ex.isReexport = false ∧ ex.name = name) = false := by
          apply decide_eq_false
          rintro ⟨-, h⟩
          exact hname (h ▸ hstar)
        cases hm : lookupMap m name with
        | some v => rfl
        | none => simp only [helig, Bool.false_or]
      · rw [if_neg hstar]
        by_cases hadd : ex.isReexport = false ∧ (lookupMap m ex.name).isNone
        · rw [if_pos hadd, ih (m ++ [(ex.name, pStr)])]
          by_cases hn : ex.name = name
          · subst hn
            have hmn : lookupMap m ex.name = none := Option.isNone_iff_eq_none.mp hadd.2
            have helig : decide (ex.isReexport = false ∧ ex.name = ex.name) = true :=
              decide_eq_true ⟨hadd.1, rfl⟩
            rw [lookupMap_append_self ex.name pStr m hmn, hmn]
            simp [hadd.1]
          · rw [lookupMap_append_other ex.name pStr name hn m]
            have helig : decide (ex.isReexport = false ∧ ex.name = name) = false := by
              apply decide_eq_false
              rintro ⟨-, h⟩
              exact hn h
            cases hm : lookupMap m name with
            | some v => rfl
            | none => simp only [helig, Bool.false_or]
        · rw [if_neg hadd, ih m]
          cases hm : lookupMap m name with
          | some v => rfl
          | none =>
              have helig : decide (ex.isReexport = false ∧ ex.name = name) = false := by
                apply decide_eq_false
                rintro ⟨h1, h2⟩
                exact hadd ⟨h1, by rw [h2, hm]; rfl⟩
              simp only [helig, Bool.false_or]

theorem emAddFacts_lookup_star (pStr : String) :
    ∀ (facts : List ExportInfo) (m : List (String × String)),
      lookupMap (emAddFacts m pStr facts) "*" = lookupMap m "*" := by
  intro facts
  induction facts with
  | nil => intro m; rfl
  | cons ex rest ih =>
      intro m
      simp only [emAddFacts]
      by_cases hstar : ex.name = "*"
      · rw [if_pos hstar]
        exact ih m
      · rw [if_neg hstar]
        by_cases hadd : ex.isReexport = false ∧ (lookupMap m ex.name).isNone
        · rw [if_pos hadd, ih (m ++ [(ex.name, pStr)]),
            lookupMap_append_other ex.name pStr "*" hstar m]
        · rw [if_neg hadd]
          exact ih m

theorem emAddFacts_lookup_file (fs : FS) (name : String) (pPath : FPath) (hname : name ≠ "*")
    (m : List (String × String)) :
    lookupMap (emAddFacts m (render pPath) (parseExportsFromFile fs pPath)) name =
      match lookupMap m name with
      | some v => some v
      | none =>
          if hasDirectFact fs name pPath = true then some (render pPath) else none :=
  emAddFacts_lookup (render pPath) name hname (parseExportsFromFile fs pPath) m

theorem emWalkList_lookup (fs : FS) (name : String) (hname : name ≠ "*") :
    ∀ (es : EntryList) (parent : FPath) (m : List (String × String)),
      lookupMap (emWalkList fs es parent m) name =
        match lookupMap m name with
        | some v => some v
        | none => ((scanList es parent).find? (hasDirectFact fs name)).map render := by
  intro es parent m
  induction es, parent, m using emWalkList.induct fs with
  | case1 parent m =>
      simp only [emWalkList, scanList, List.find?_nil, Option.map_none]
      cases lookupMap m name <;> rfl
  | case2 nm data rest parent m p m1 ih =>
      simp only [emWalkList, scanList] at ih ⊢
      by_cases hx : extMatch (render (parent ++ [nm])) = true
      · have hm1 : m1 = emAddFacts m (render (parent ++ [nm]))
            (parseExportsFromFile fs (parent ++ [nm])) := by
          show (if extMatch (render (parent ++ [nm])) = true then
              emAddFacts m (render (parent ++ [nm])) (parseExportsFromFile fs (parent ++ [nm]))
            else m) = _
          rw [if_pos hx]
        rw [hm1] at ih
        rw [if_pos hx, if_pos hx]
        rw [ih, emAddFacts_lookup_file fs name (parent ++ [nm]) hname m]
        cases hm : lookupMap m name with
        | some v => rfl
        | none =>
            by_cases hany : hasDirectFact fs name (parent ++ [nm]) = true
            · rw [if_pos hany, List.find?_cons_of_pos _ hany]
              rfl
            · rw [if_neg hany, List.find?_cons_of_neg _ hany]
      · have hm1 : m1 = m := by
          show (if extMatch (render (parent ++ [nm])) = true then
              emAddFacts m (render (parent ++ [nm])) (parseExportsFromFile fs (parent ++ [nm]))
            else m) = m
          rw [if_neg hx]
        rw [hm1] at ih
        rw [if_neg hx, if_neg hx]
        exact ih
  | case3 nm sub rest parent m ih1 ih2 =>
      simp only [emWalkList, scanList] at ih1 ih2 ⊢
      rw [ih2, ih1, List.find?_append]
      cases hm : lookupMap m name with
      | some v => rfl
      | none =>
          cases hsub : (scanList sub (parent ++ [nm])).find? (hasDirectFact fs name) with
          | some p0 => rfl
          | none => rfl

theorem emWalkList_lookup_star (fs : FS) :
    ∀ (es : EntryList) (parent : FPath) (m : List (String × String)),
      lookupMap (emWalkList fs es parent m) "*" = lookupMap m "*" := by
  intro es parent m
  induction es, parent, m using emWalkList.induct fs with
  | case1 parent m => rfl
  | case2 nm data rest parent m p m1 ih =>
      simp only [emWalkList] at ih ⊢
      by_cases hx : extMatch (render (parent ++ [nm])) = true
      · have hm1 : m1 = emAddFacts m (render (parent ++ [nm]))
            (parseExportsFromFile fs (parent ++ [nm])) := by
          show (if extMatch (render (parent ++ [nm])) = true then
              emAddFacts m (render (parent ++ [nm])) (parseExportsFromFile fs (parent ++ [nm]))
            else m) = _
          rw [if_pos hx]
        rw [hm1] at ih
        rw [if_pos hx, ih,
          emAddFacts_lookup_star (render (parent ++ [nm])) (parseExportsFromFile fs (parent ++ [nm])) m]
      · have hm1 : m1 = m := by
          show (if extMatch (render (parent ++ [nm])) = true then
              emAddFacts m (render (parent ++ [nm])) (parseExportsFromFile fs (parent ++ [nm]))
            else m) = m
          rw [if_neg hx]
        rw [hm1] at ih
        rw [if_neg hx]
        exact ih
  | case3 nm sub rest parent m ih1 ih2 =>
      simp only [emWalkList] at ih1 ih2 ⊢
      rw [ih2, ih1]

/-- C9: the directory export index maps a name to the first file, in the
depth-first scan order of the subtree, that declares it with a direct
(non-re-export, non-wildcard) fact — so entries come only from direct
facts and duplicate names keep the first file visited; the wildcard name
is never indexed; and a non-existent root directory yields the empty map
instead of failing. -/
theorem c9_export_map_contract (fs : FS) (rootDir : FPath) (dir : String) :
    (∀ name, name ≠ "*" →
      lookupMap (buildExportMap fs rootDir dir) name =
        ((scanFiles fs rootDir dir).find? (hasDirectFact fs name)).map render) ∧
    lookupMap (buildExportMap fs rootDir dir) "*" = none ∧
    (existsB fs (resolvePath rootDir dir) = false → buildExportMap fs rootDir dir = []) := by
  refine ⟨?_, ?_, ?_⟩
  · intro name hname
    simp only [buildExportMap, scanFiles]
    by_cases hex : existsB fs (resolvePath rootDir dir) = true
    · rw [if_pos hex, if_pos hex]
      by_cases hroot : (resolvePath rootDir dir).isEmpty = true
      · rw [if_pos hroot, if_pos hroot]
        rw [emWalkList_lookup fs name hname fs.root [] []]
        rfl
      · rw [if_neg hroot, if_neg hroot]
        cases hlk : lookupEntry fs (resolvePath rootDir dir) with
        | none => simp [lookupMap]
        | some e =>
            cases e with
            | file nm2 d =>
                by_cases hxm : extMatch (render (resolvePath rootDir dir)) = true
                · rw [if_pos hxm, if_pos hxm]
                  rw [emAddFacts_lookup_file fs name (resolvePath rootDir dir) hname []]
                  by_cases hany : hasDirectFact fs name (resolvePath rootDir dir) = true
                  · rw [List.find?_cons_of_pos _ hany]
                    show (if hasDirectFact fs name (resolvePath rootDir dir) = true then
                        some (render (resolvePath rootDir dir))
                      else none) = _
                    rw [if_pos hany]
                    rfl
                  · rw [List.find?_cons_of_neg _ hany]
                    show (if hasDirectFact fs name (resolvePath rootDir dir) = true then
                        some (render (resolvePath rootDir dir))
                      else none) = _
                    rw [if_neg hany]
                    rfl
                · rw [if_neg hxm, if_neg hxm]
                  rfl
            | dir nm2 sub =>
                rw [emWalkList_lookup fs name hname sub (resolvePath rootDir dir) []]
                rfl
    · rw [if_neg hex, if_neg hex]
      rfl
  · simp only [buildExportMap]
    by_cases hex : existsB fs (resolvePath rootDir dir) = true
    · rw [if_pos hex]
      by_cases hroot : (resolvePath rootDir dir).isEmpty = true
      · rw [if_pos hroot]
        rw [emWalkList_lookup_star fs fs.root [] []]
        rfl
      · rw [if_neg hroot]
        cases hlk : lookupEntry fs (resolvePath rootDir dir) with
        | none => rfl
        | some e =>
            cases e with
            | file nm2 d =>
                by_cases hxm : extMatch (render (resolvePath rootDir dir)) = true
                · rw [if_pos hxm]
                  rw [emAddFacts_lookup_star (render (resolvePath rootDir dir))
                    (parseExportsFromFile fs (resolvePath rootDir dir)) []]
                  rfl
                · rw [if_neg hxm]
                  rfl
            | dir nm2 sub =>
                rw [emWalkList_lookup_star fs sub (resolvePath rootDir dir) []]
                rfl
    · rw [if_neg hex]
      rfl
  · intro hex
    simp only [buildExportMap]
    rw [if_neg (by rw [hex]; exact Bool.noConfusion)]

/-- C8 (amended): an exported destructuring variable statement produces one
local-declaration fact per identifier bound at the *top level* of the
pattern, in order, using the bound (renamed) identifier; identifiers bound
inside nested binding patterns produce no facts. -/
theorem c8_destructuring_top_level (decls : List BindingName) :
    handleVariableStatement decls =
      decls.flatMap fun d =>
        (topLevelBoundNames d).map fun s => ({ name := s } : ExportInfo) := by
  induction decls with
  | nil => rfl
  | cons d rest ih =>
      simp only [handleVariableStatement] at ih ⊢
      rw [List.flatMap_cons, List.flatMap_cons, ih]
      congr 1
      cases d with
      | ident s => rfl
      | arrayPattern elems => exact flatMap_arrayElemFacts elems
      | objectPattern elems => exact flatMap_objectElemFacts elems

/-- C8 (counterexample): for
`export const [\x7b x: Foo \x7d, B] = ...` the bound identifiers are `Foo`
and `B`, but the extractor produces a fact only for `B` — the identifier
`Foo`, bound inside the nested object pattern, yields no fact, refuting
"one local-declaration fact per bound identifier". -/
theorem c8_nested_pattern_skipped :
    handleVariableStatement
        [BindingName.arrayPattern
          [ArrayElem.binding none
              (BindingName.objectPattern
                [ObjectElem.binding (some (PropName.ident "x")) (BindingName.ident "Foo")]),
            ArrayElem.binding none (BindingName.ident "B")]] =
      [{ name := "B" }] ∧
    ({ name := "Foo" } : ExportInfo) ∉
      handleVariableStatement
        [BindingName.arrayPattern
          [ArrayElem.binding none
              (BindingName.objectPattern
                [ObjectElem.binding (some (PropName.ident "x")) (BindingName.ident "Foo")]),
            ArrayElem.binding none (BindingName.ident "B")]] := by
  refine ⟨by decide, by decide⟩

/-- C1 (code bug): in `fsC1`, the name `A` requested from the barrel `/b`
is an alias for `B`, declared directly in the reachable module
`/b/child/impl.ts` of an acyclic re-export graph — yet the resolver
returns not-found, because the ascension step that would follow the
nested aggregator is unreachable (its visited-set guard always fires). -/
theorem c1_reachable_declaration_not_resolved :
    resolveExportThroughBarrel fsC1 [] ["b"] "A" = none ∧
    resolveModuleFile fsC1 ["b"] "./child" = some ["b", "child", "index.ts"] ∧
    hasDirectFact fsC1 "B" ["b", "child", "impl.ts"] = true := by
  refine ⟨by decide, by decide, by decide⟩

/-- C2 (code bug): in `fsC2`, none of the four priority checks match in
`/b/index.ts`, so the spec's ascension should recurse into the child
aggregator directory and succeed at `/b/child/impl.ts`; the code instead
returns not-found, because `walkIndex` has already marked `/b/index.ts`
visited before `processParentReexports` runs, and the latter skips every
visited index file — ascension is dead code. -/
theorem c2_ascension_never_succeeds :
    resolveExportThroughBarrel fsC2 [] ["b"] "A" = none ∧
    resolveModuleFile fsC2 ["b"] "./child" = some ["b", "child", "index.ts"] ∧
    hasDirectFact fsC2 "A" ["b", "child", "impl.ts"] = true := by
  refine ⟨by decide, by decide, by decide⟩

/-- C3 (counterexample): in `fsC3` both `/b/index.ts` and `/b/index.js`
exist; `index.ts` parses to no exports, and the export `X` declared only
in `index.js` IS found — refuting "the first existing index file is used
exclusively" and "an export declared only in index.js is never found when
index.ts also exists". -/
theorem c3_lower_priority_index_found :
    resolveExportThroughBarrel fsC3 [] ["b"] "X" =
      some { resolved := "/b/", importName := "X", chain := ["/b/index.js"] } ∧
    existsB fsC3 ["b", "index.ts"] = true ∧
    parseExportsFromFile fsC3 ["b", "index.ts"] = [] := by
  refine ⟨by decide, by decide, by decide⟩

/-- C4 (counterexample): in `fsC4` the wildcard target `/b/sub.ts` does NOT
directly declare `Z` (its only `Z` fact is itself a re-export), yet
wildcard resolution of `Z` succeeds and returns `/b/sub.ts` — refuting
"succeeds exactly when the file directly declares (with a non-re-export
fact) the requested name". -/
theorem c4_wildcard_through_reexport :
    resolveExportThroughBarrel fsC4 [] ["b"] "Z" =
      some { resolved := "/b/sub.ts", importName := "Z",
             chain := ["/b/index.ts", "/b/sub.ts"] } ∧
    hasDirectFact fsC4 "Z" ["b", "sub.ts"] = false := by
  refine ⟨by decide, by decide⟩

/-- C5 (counterexample): `/src/widgets2` is a barrel unrelated to
`/src/widgets`, but its absolute path extends the latter as a plain string
prefix; with `X → /src/widgets2/x.ts` in the shared index, resolving `X`
from barrel `/src/widgets` returns barrel `/src/widgets2`'s file even
though that file does not lie within `/src/widgets` — refuting "never
returns barrel B's file". -/
theorem c5_unrelated_barrel_leak :
    resolveExportThroughBarrel fsC5 [("X", "/src/widgets2/x.ts")] ["src", "widgets"] "X" =
      some { resolved := "/src/widgets2/x.ts", importName := "X", chain := ["<exportMap>"] } ∧
    pathWithin ["src", "widgets"] ["src", "widgets2", "x.ts"] = false ∧
    hasDirectFact fsC5 "X" ["src", "widgets2", "x.ts"] = true := by
  refine ⟨by decide, by decide, by decide⟩

/-- C10 (counterexample): a resolution that succeeds through the quick-path
fallback has `resolutionChain = ["<exportMap>"]` — the sentinel is not an
aggregator index-file path (it is not even an absolute path), refuting
"the chain contains aggregator file paths and nothing else". -/
theorem c10_sentinel_chain :
    resolveExportThroughBarrel fsC10 [("Y", "/w/y.ts")] ["w"] "Y" =
      some { resolved := "/w/y.ts", importName := "Y", chain := ["<exportMap>"] } ∧
    strStartsWith "<exportMap>" "/" = false := by
  refine ⟨by decide, by decide⟩

/-- Witness for `c3_index_priority_first_match`: in `fsC3`, `index.ts`
exists and yields no match, `index.tsx` is absent, and `index.js` exists
and matches `X`, so the loop returns the `index.js` result. -/
theorem c3_index_priority_first_match_witness :
    walkIndexFiles fsC3 "X" ["b"] indexFileNames [] =
      (some { resolved := "/b/", importName := "X", chain := ["/b/index.js"] },
        ["/b/index.js", "/b/index.ts"]) :=
  (c3_index_priority_first_match fsC3 "X" ["b"] [] ["/b/index.ts"]
      ["/b/index.js", "/b/index.ts"]
      { resolved := "/b/", importName := "X", chain := ["/b/index.js"] }).2
    (by decide) (by decide) (by decide) (by decide) (by decide)

/-- Witness for `c4_wildcard_characterization`: the wildcard check on
`/b/index.ts`'s facts succeeds for `Z`, and the characterization yields
the target file with the requested name unchanged. -/
theorem c4_wildcard_characterization_witness :
    checkWildcardReexport fsC4 (parseExportsFromFile fsC4 ["b", "index.ts"]) "Z" ["b"]
        "/b/index.ts" =
      some { resolved := "/b/sub.ts", importName := "Z",
             chain := ["/b/index.ts", "/b/sub.ts"] } ∧
    (("Z" : String) = "Z" ∧ (false : Bool) = false ∧
      ∃ t, ("/b/sub.ts" : String) = render t ∧
        (["/b/index.ts", "/b/sub.ts"] : List String) = ["/b/index.ts", render t] ∧
        isFileB fsC4 t = true ∧
        (parseExportsFromFile fsC4 t).any (fun fe => decide (fe.name = "Z")) = true) :=
  ⟨by decide,
    (c4_wildcard_characterization fsC4 "Z" ["b"] "/b/index.ts"
        (parseExportsFromFile fsC4 ["b", "index.ts"])).2
      { resolved := "/b/sub.ts", importName := "Z", chain := ["/b/index.ts", "/b/sub.ts"] }
      (by decide)⟩

/-- Witness for `c5_quick_path_scoping`: the quick-path result for `Y`
from barrel `/w` comes from the map and passes the string-prefix test. -/
theorem c5_quick_path_scoping_witness :
    lookupMap [("Y", "/w/y.ts")] "Y" = some "/w/y.ts" ∧
    strStartsWith "/w/y.ts" (render ["w"]) = true ∧
    ("Y" : String) = "Y" ∧
    (["<exportMap>"] : List String) = ["<exportMap>"] :=
  c5_quick_path_scoping fsC10 [("Y", "/w/y.ts")] ["w"] "Y"
    { resolved := "/w/y.ts", importName := "Y", chain := ["<exportMap>"] }
    (by decide) (by decide)

/-- Witness for `c7_no_exceptions`: a missing path yields the empty fact
sequence, and a barrel with no index file plus a scope-mismatched map
entry resolves to the explicit no-match value. -/
theorem c7_no_exceptions_witness :
    parseExportsFromFile fsCyc ["nope"] = [] ∧
    resolveExportThroughBarrel fsC10 [("Q", "/z/q.ts")] ["w"] "Q" = none :=
  ⟨c7_no_exceptions.1 fsCyc ["nope"]
      (by intro nm stmts h; exact Option.noConfusion h),
    c7_no_exceptions.2.1 fsC10 [("Q", "/z/q.ts")] ["w"] "Q" (by decide)
      (by
        intro c hc
        obtain rfl := Option.some.inj hc
        decide)⟩

/-- Witness for `c9_export_map_contract`: on `fsC9`'s subtree the map's
entry for `X` is the first scanned file declaring it directly, the
wildcard name is absent, and a non-existent root yields the empty map. -/
theorem c9_export_map_contract_witness :
    lookupMap (buildExportMap fsC9 [] "w") "X" =
      ((scanFiles fsC9 [] "w").find? (hasDirectFact fsC9 "X")).map render ∧
    lookupMap (buildExportMap fsC9 [] "w") "*" = none ∧
    buildExportMap fsCyc [] "nothere" = [] :=
  ⟨(c9_export_map_contract fsC9 [] "w").1 "X" (by decide),
    (c9_export_map_contract fsC9 [] "w").2.1,
    (c9_export_map_contract fsCyc [] "nothere").2.2 (by decide)⟩

/-- Witness for `c10_chain_shape`: the successful resolution of `X` from
`/b` in `fsC3` has a chain of one of the described shapes. -/
theorem c10_chain_shape_witness :
    (∃ f, f ∈ indexFileNames ∧
      ((["/b/index.js"] : List String) = [render (["b"] ++ [f])] ∨
        (["/b/index.js"] : List String) = [render (["b"] ++ [f]), "/b/"])) ∨
    ((["/b/index.js"] : List String) = ["<exportMap>"] ∧
      lookupMap [] "X" = some "/b/" ∧ ("X" : String) = "X") :=
  c10_chain_shape fsC3 [] ["b"] "X"
    { resolved := "/b/", importName := "X", chain := ["/b/index.js"] } (by decide)
